import Mathlib

/-!
Verification of the PageRank implementation in `src/page_rank.py`.

The rank-computation engine (`calculate_page_rank`, lines 69–135) is embedded
shallowly: node identifiers are an arbitrary type `V` with decidable equality,
Python floats become exact rationals `ℚ` (float literals are read as their
decimal values), dictionaries keyed by the node set become functions `V → ℚ`,
and the fallible paths — the `ZeroDivisionError` raised by `1.0 / no_of_nodes`
on an empty graph, and the `exit(0)` calls on incomplete personalization and
on non-convergence — become an `Except` result carrying the error names the
specification gives those failures.  In the personalized branch the program
manufactures the decimal-string keys `str(1) … str(6012)`; those identifiers
are represented by the natural numbers themselves (string equality on the
canonical decimal representations produced by `str` coincides with numeric
equality).
-/

set_option linter.unusedSectionVars false

namespace PageRankVerif

/-- Sum of `f` over a list (the shape of Python's `sum(...)` comprehensions). -/
def lsum (l : List α) (f : α → ℚ) : ℚ := (l.map f).sum

/-- Error kinds of the specification; they name the program's failure exits. -/
inductive PRError where
  | EmptyGraphError
  | IncompletePersonalizationError
  | MaxIterationsExceededError
  deriving DecidableEq

variable {V : Type} [DecidableEq V]

/-- A directed graph: the node list together with the weighted out-edges of
each node (the aggregate weight to each distinct neighbour, as in a networkx
`DiGraph`). -/
structure Digraph (V : Type) where
  nodes : List V
  succ : V → List (V × ℚ)

/-- Well-formedness matching a networkx digraph whose edges carry the default
weight `1.0` (or any positive weights): distinct nodes, per-node neighbour
lists with distinct keys, neighbours inside the node set, positive weights. -/
def Wf (g : Digraph V) : Prop :=
  g.nodes.Nodup ∧ (∀ n ∈ g.nodes, ((g.succ n).map Prod.fst).Nodup) ∧
    ∀ n ∈ g.nodes, ∀ e ∈ g.succ n, e.1 ∈ g.nodes ∧ 0 < e.2

instance (g : Digraph V) : Decidable (Wf g) := by
  unfold Wf; infer_instance

/-- Total outgoing weight of a node (the weighted out-degree that
`nx.stochastic_graph` divides by). -/
def outWeight (g : Digraph V) (n : V) : ℚ := lsum (g.succ n) (fun e => e.2)

/-- Line 75: `nx.stochastic_graph` rescales each out-edge weight by the total
outgoing weight of its source node. -/
def stochSucc (g : Digraph V) (n : V) : List (V × ℚ) :=
  (g.succ n).map (fun e => (e.1, e.2 / outWeight g n))

/-- Line 104: `dangling_nodes`, the nodes with no outgoing edges. -/
def dangling_nodes (g : Digraph V) : List V :=
  g.nodes.filter (fun n => (g.succ n).isEmpty)

/-- Transition probability flowing from the entries of a neighbour list `l`
into the node `m`. -/
def weightTo (l : List (V × ℚ)) (m : V) : ℚ :=
  lsum l (fun e => if e.1 = m then e.2 else 0)

/-- Pointwise replacement in a rank vector: the effect of `R[k] = v` on a
Python dictionary over the node set. -/
def updf (R : V → ℚ) (k : V) (v : ℚ) : V → ℚ := fun m => if m = k then v else R m

/-- Line 112: `dangle_sum = beta * sum(previous_rank_vector[n] for n in dangling_nodes)`. -/
def dangle_sum (β : ℚ) (g : Digraph V) (prev : V → ℚ) : ℚ :=
  β * lsum (dangling_nodes g) prev

/-- Lines 117–118: the inner loop `for j in stochastic[n]` adding
`beta * previous_rank_vector[n] * stochastic[n][j][weight]` into
`rank_vector[j]`; the coefficient `c` stands for
`beta * previous_rank_vector[n]`. -/
def distribute (c : ℚ) (R : V → ℚ) (l : List (V × ℚ)) : V → ℚ :=
  l.foldl (fun S e => updf S e.1 (S e.1 + c * e.2)) R

/-- Lines 114–121: the body of `for n in rank_vector` — distribute node `n`'s
previous rank along its stochastic out-edges, then add the dangling and
random-surf terms at `n`. -/
def nodeBody (β ds : ℚ) (w pers prev : V → ℚ) (g : Digraph V) (R : V → ℚ) (n : V) : V → ℚ :=
  let R1 := distribute (β * prev n) R (stochSucc g n)
  updf R1 n (R1 n + ds * w n + (1 - β) * pers n)

/-- One full iteration (lines 111–121): start from the all-zero vector of
line 111 and run the body over every node. -/
def pageRankStep (β : ℚ) (g : Digraph V) (w pers prev : V → ℚ) : V → ℚ :=
  g.nodes.foldl (nodeBody β (dangle_sum β g prev) w pers prev g) (fun _ => 0)

/-- Lines 125–128: `total_error = sum(abs(rank_vector[n] - previous_rank_vector[n]))`. -/
def total_error (nodes : List V) (prev next : V → ℚ) : ℚ :=
  lsum nodes (fun n => |next n - prev n|)

/-- Lines 109–135: the iteration loop; the fuel argument is
`maximum_iterations`.  Exhausting the iteration budget is the
`print('Failed to converge.'); exit(0)` at lines 134–135, which the
specification names `MaxIterationsExceededError`. -/
def pageRankLoop (β ε : ℚ) (g : Digraph V) (w pers : V → ℚ) :
    ℕ → (V → ℚ) → Except PRError (V → ℚ)
  | 0, _ => .error .MaxIterationsExceededError
  | k + 1, prev =>
    let next := pageRankStep β g w pers prev
    if total_error g.nodes prev next < (g.nodes.length : ℚ) * ε then .ok next
    else pageRankLoop β ε g w pers k next

/-- The successive rank vectors at the iteration boundaries, starting from `R0`. -/
def iterR (β : ℚ) (g : Digraph V) (w pers R0 : V → ℚ) : ℕ → (V → ℚ)
  | 0 => R0
  | t + 1 => pageRankStep β g w pers (iterR β g w pers R0 t)

/-- Line 81: `rank_vector = dict.fromkeys(stochastic, 1.0 / no_of_nodes)`. -/
def initialRank (g : Digraph V) : V → ℚ := fun _ => 1 / (g.nodes.length : ℚ)

/-- Line 85: the uniform `personalization_values`, `1.0 / no_of_nodes` at
every node (non-personalized mode). -/
def uniformPers (g : Digraph V) : V → ℚ := fun _ => 1 / (g.nodes.length : ℚ)

/-- Line 10: module default `maximum_iterations = 150`. -/
def maximum_iterations : ℕ := 150

/-- Line 13: module default `beta = 0.45`. -/
def beta : ℚ := 45 / 100

/-- Line 22: module default `max_error = 0.000001`. -/
def max_error : ℚ := 1 / 1000000

/-- Lines 69–135 in the default non-personalized mode, with the module-level
configuration (`beta`, `max_error`, `maximum_iterations`) passed explicitly.
An empty graph makes line 81 divide by zero (`ZeroDivisionError`); the
specification names that failure `EmptyGraphError`.  Line 103 aliases
`dangling_weights = personalization_values`, so the loop receives the same
function for both. -/
def calculate_page_rank (β ε : ℚ) (K : ℕ) (g : Digraph V) : Except PRError (V → ℚ) :=
  if g.nodes.length = 0 then .error .EmptyGraphError
  else pageRankLoop β ε g (uniformPers g) (uniformPers g) K (initialRank g)

/-- Stable descending insertion, modelling Python's stable
`sorted(..., key=itemgetter(1), reverse=True)`: a later element moves past an
earlier one only when its rank is strictly greater, so equal ranks keep their
input order. -/
def insertDesc (x : V × ℚ) : List (V × ℚ) → List (V × ℚ)
  | [] => [x]
  | y :: ys => if y.2 < x.2 then x :: y :: ys else y :: insertDesc x ys

/-- Line 160: `sorted(pr.items(), key=operator.itemgetter(1), reverse=True)` —
a stable sort of the (node, rank) pairs by rank descending. -/
def sorted_page_ranks (pr : List (V × ℚ)) : List (V × ℚ) :=
  pr.foldl (fun acc x => insertDesc x acc) []

/-- Modelled from the spec (§4.4): insertion for a ranking whose equal-rank
ties are broken by the total order on the node identifiers. -/
def specInsertLex (x : ℕ × ℚ) : List (ℕ × ℚ) → List (ℕ × ℚ)
  | [] => [x]
  | y :: ys =>
    if y.2 < x.2 ∨ (x.2 = y.2 ∧ x.1 ≤ y.1) then x :: y :: ys else y :: specInsertLex x ys

/-- Modelled from the spec (§4.4): the ranking sorted by rank descending with
equal-rank ties broken by the identifier order, against which the code's
tie-breaking is compared. -/
def specRankingLex (l : List (ℕ × ℚ)) : List (ℕ × ℚ) :=
  l.foldl (fun acc x => specInsertLex x acc) []

/-- Python dict assignment `d[k] = v` on an association list: replace the
value in place if the key exists (dicts keep insertion order), append
otherwise. -/
def dictUpdate (d : List (ℕ × ℚ)) (k : ℕ) (v : ℚ) : List (ℕ × ℚ) :=
  if ∃ e ∈ d, e.1 = k then d.map (fun e => if e.1 = k then (k, v) else e)
  else d ++ [(k, v)]

/-- Lines 88–89: `for i in range(1, 6013): vector_set.update({str(i): 0})`,
acting on the module-level dictionary `vector_set` passed in as `d`. -/
def fillVectorSet (d : List (ℕ × ℚ)) : List (ℕ × ℚ) :=
  (List.range' 1 6012).foldl (fun d i => dictUpdate d i 0) d

/-- Lines 92–93: write `1 / len(docs)` at each category member. -/
def writeCategory (d : List (ℕ × ℚ)) (docs : List ℕ) : List (ℕ × ℚ) :=
  docs.foldl (fun d e => dictUpdate d e (1 / (docs.length : ℚ))) d

/-- Lines 86–100: the personalized branch as a transformer of the module-level
`vector_set` dictionary (state passed in and returned unchanged by the rest of
the invocation).  The membership test is line 95's
`if set(graph) - set(vector_set)`; its `exit(0)` is the specification's
`IncompletePersonalizationError`; a successful run also yields the normalized
`personalization_values` of line 100. -/
def personalizedSetup (vs0 : List (ℕ × ℚ)) (docs graphNodes : List ℕ) :
    List (ℕ × ℚ) × Except PRError (ℕ → ℚ) :=
  let vs := writeCategory (fillVectorSet vs0) docs
  if ∃ n ∈ graphNodes, List.lookup n vs = none then
    (vs, .error .IncompletePersonalizationError)
  else
    (vs, .ok (fun k => ((List.lookup k vs).getD 0) / lsum vs (fun e => e.2)))

/-- Observe a produced personalization vector at one node. -/
def persAt (r : Except PRError (ℕ → ℚ)) (k : ℕ) : Option ℚ :=
  match r with
  | .ok R => some (R k)
  | .error _ => none

/-- A one-node graph whose only node is dangling. -/
def exG1 : Digraph ℕ := ⟨[1], fun _ => []⟩

/-- A two-node graph with the single edge 1 → 2; node 2 is dangling. -/
def exG2 : Digraph ℕ := ⟨[1, 2], fun n => if n = 1 then [(2, 1)] else []⟩

/-- The converged vector `calculate_page_rank` returns on `exG1` (one
iteration suffices there). -/
def exStep : ℕ → ℚ :=
  pageRankStep (45 / 100) exG1 (uniformPers exG1) (uniformPers exG1) (initialRank exG1)

theorem lsum_nil (f : α → ℚ) : lsum [] f = 0 := rfl

theorem lsum_cons (a : α) (l : List α) (f : α → ℚ) :
    lsum (a :: l) f = f a + lsum l f := by
  simp [lsum]

theorem lsum_append (l1 l2 : List α) (f : α → ℚ) :
    lsum (l1 ++ l2) f = lsum l1 f + lsum l2 f := by
  induction l1 with
  | nil => simp [lsum_nil]
  | cons a l ih => simp [lsum_cons, ih]; ring

theorem lsum_map (l : List α) (g : α → β) (f : β → ℚ) :
    lsum (l.map g) f = lsum l (fun a => f (g a)) := by
  simp [lsum, List.map_map]
  rfl

theorem lsum_congr {l : List α} {f g : α → ℚ} (h : ∀ a ∈ l, f a = g a) :
    lsum l f = lsum l g := by
  induction l with
  | nil => rfl
  | cons a l ih =>
    simp only [lsum_cons]
    rw [h a (by simp), ih (fun a ha => h a (by simp [ha]))]

theorem lsum_zero (l : List α) : lsum l (fun _ => 0) = 0 := by
  induction l with
  | nil => rfl
  | cons a l ih => simp [lsum_cons, ih]

theorem lsum_add (l : List α) (f g : α → ℚ) :
    lsum l (fun a => f a + g a) = lsum l f + lsum l g := by
  induction l with
  | nil => simp [lsum_nil]
  | cons a l ih => simp [lsum_cons, ih]; ring

theorem lsum_mul (l : List α) (c : ℚ) (f : α → ℚ) :
    lsum l (fun a => c * f a) = c * lsum l f := by
  induction l with
  | nil => simp [lsum_nil]
  | cons a l ih => simp [lsum_cons, ih]; ring

theorem lsum_mul_right (l : List α) (c : ℚ) (f : α → ℚ) :
    lsum l (fun a => f a * c) = lsum l f * c := by
  induction l with
  | nil => simp [lsum_nil]
  | cons a l ih => simp [lsum_cons, ih]; ring

theorem lsum_div (l : List α) (c : ℚ) (f : α → ℚ) :
    lsum l (fun a => f a / c) = lsum l f / c := by
  simp only [div_eq_mul_inv]
  exact lsum_mul_right l c⁻¹ f

theorem lsum_swap (l : List α) (l2 : List β) (f : α → β → ℚ) :
    lsum l (fun a => lsum l2 (f a)) = lsum l2 (fun b => lsum l (fun a => f a b)) := by
  induction l with
  | nil => simp [lsum_nil, lsum_zero]
  | cons a l ih => simp [lsum_cons, ih, lsum_add]

theorem lsum_const (l : List α) (c : ℚ) : lsum l (fun _ => c) = l.length * c := by
  induction l with
  | nil => simp [lsum_nil]
  | cons a l ih => simp [lsum_cons, ih]; ring

theorem lsum_ite_eq {l : List α} (hnd : l.Nodup) {k : α} (hk : k ∈ l) (c : ℚ)
    [DecidableEq α] : lsum l (fun a => if a = k then c else 0) = c := by
  induction l with
  | nil => cases hk
  | cons a l ih =>
    rw [List.nodup_cons] at hnd
    rcases List.mem_cons.mp hk with h | h
    · subst h
      rw [lsum_cons, if_pos rfl]
      rw [lsum_congr (g := fun _ => 0) (fun b hb => by
        rw [if_neg]; intro hba; exact hnd.1 (hba ▸ hb)), lsum_zero, add_zero]
    · rw [lsum_cons, if_neg (fun hak : a = k => hnd.1 (hak ▸ h)), ih hnd.2 h, zero_add]

theorem lsum_ite_eq2 {l : List α} (hnd : l.Nodup) {k : α} (hk : k ∈ l) (c : ℚ)
    [DecidableEq α] : lsum l (fun a => if k = a then c else 0) = c := by
  rw [lsum_congr (g := fun a => if a = k then c else 0) (fun a _ => by
    by_cases h : a = k
    · simp [h]
    · have h2 : ¬k = a := fun hka => h hka.symm
      simp [h, h2])]
  exact lsum_ite_eq hnd hk c

theorem lsum_filter_compl (l : List α) (p : α → Bool) (f : α → ℚ) :
    lsum l (fun a => if p a then 0 else f a) = lsum l f - lsum (l.filter p) f := by
  induction l with
  | nil => simp [lsum_nil]
  | cons a l ih =>
    by_cases hp : p a
    · simp [lsum_cons, hp, List.filter_cons, ih]
    · simp [lsum_cons, hp, List.filter_cons, ih]
      ring

theorem lsum_nonneg {l : List α} {f : α → ℚ} (h : ∀ a ∈ l, 0 ≤ f a) :
    0 ≤ lsum l f := by
  induction l with
  | nil => simp [lsum_nil]
  | cons a l ih =>
    rw [lsum_cons]
    exact add_nonneg (h a (by simp)) (ih (fun a ha => h a (by simp [ha])))

theorem lsum_pos {l : List α} {f : α → ℚ} (hne : l ≠ []) (h : ∀ a ∈ l, 0 < f a) :
    0 < lsum l f := by
  cases l with
  | nil => exact absurd rfl hne
  | cons a l =>
    rw [lsum_cons]
    exact add_pos_of_pos_of_nonneg (h a (by simp))
      (lsum_nonneg (fun b hb => (h b (by simp [hb])).le))

theorem updf_apply (R : V → ℚ) (k : V) (v : ℚ) (m : V) :
    updf R k v m = if m = k then v else R m := rfl

theorem weightTo_nil (m : V) : weightTo ([] : List (V × ℚ)) m = 0 := rfl

theorem weightTo_cons (e : V × ℚ) (l : List (V × ℚ)) (m : V) :
    weightTo (e :: l) m = (if e.1 = m then e.2 else 0) + weightTo l m := by
  simp [weightTo, lsum_cons]

theorem weightTo_nonneg {l : List (V × ℚ)} (h : ∀ e ∈ l, 0 ≤ e.2) (m : V) :
    0 ≤ weightTo l m := by
  refine lsum_nonneg (fun e he => ?_)
  by_cases hem : e.1 = m
  · simpa [hem] using h e he
  · simp [hem]

theorem distribute_apply (c : ℚ) (l : List (V × ℚ)) (R : V → ℚ) (m : V) :
    distribute c R l m = R m + c * weightTo l m := by
  induction l generalizing R with
  | nil => simp [distribute, weightTo_nil]
  | cons e l ih =>
    show distribute c (updf R e.1 (R e.1 + c * e.2)) l m = _
    rw [ih, weightTo_cons, updf_apply]
    by_cases hm : m = e.1
    · rw [if_pos hm, if_pos (hm ▸ rfl), hm]
      ring
    · rw [if_neg hm, if_neg (fun h : e.1 = m => hm h.symm)]
      ring

theorem nodeBody_apply (β ds : ℚ) (w pers prev : V → ℚ) (g : Digraph V)
    (R : V → ℚ) (n m : V) :
    nodeBody β ds w pers prev g R n m =
      R m + β * prev n * weightTo (stochSucc g n) m +
        (if m = n then ds * w n + (1 - β) * pers n else 0) := by
  show updf _ n _ m = _
  rw [updf_apply]
  by_cases hm : m = n
  · rw [if_pos hm, if_pos hm, distribute_apply, hm]
    ring
  · rw [if_neg hm, if_neg hm, distribute_apply]
    ring

theorem foldl_nodeBody_apply (β ds : ℚ) (w pers prev : V → ℚ) (g : Digraph V)
    (l : List V) (hnd : l.Nodup) (R : V → ℚ) (m : V) :
    l.foldl (nodeBody β ds w pers prev g) R m =
      R m + lsum l (fun n => β * prev n * weightTo (stochSucc g n) m) +
        (if m ∈ l then ds * w m + (1 - β) * pers m else 0) := by
  induction l generalizing R with
  | nil => simp [lsum_nil]
  | cons n l ih =>
    rw [List.nodup_cons] at hnd
    show l.foldl _ (nodeBody β ds w pers prev g R n) m = _
    rw [ih hnd.2, nodeBody_apply, lsum_cons]
    by_cases hm : m = n
    · have hml : m ∉ l := hm ▸ hnd.1
      rw [if_pos hm, if_neg hml, if_pos (List.mem_cons.mpr (Or.inl hm)), hm]
      ring
    · rw [if_neg hm]
      by_cases hml : m ∈ l
      · rw [if_pos hml, if_pos (List.mem_cons.mpr (Or.inr hml))]
        ring
      · rw [if_neg hml, if_neg (fun h => (List.mem_cons.mp h).elim hm hml)]
        ring

/-- Closed form of one iteration: transition contributions plus, at each node
of the graph, the dangling and random-surf terms. -/
theorem pageRankStep_apply (β : ℚ) (g : Digraph V) (w pers prev : V → ℚ)
    (hnd : g.nodes.Nodup) (m : V) :
    pageRankStep β g w pers prev m =
      β * lsum g.nodes (fun n => prev n * weightTo (stochSucc g n) m) +
        (if m ∈ g.nodes then dangle_sum β g prev * w m + (1 - β) * pers m else 0) := by
  unfold pageRankStep
  rw [foldl_nodeBody_apply β _ w pers prev g g.nodes hnd _ m]
  rw [lsum_congr (g := fun n => β * (prev n * weightTo (stochSucc g n) m))
    (fun n _ => by ring), lsum_mul]
  ring

/-- Total outgoing probability of a node after stochastic rescaling: `1` for a
node with out-edges of positive total weight, `0` for a dangling node. -/
theorem stochSucc_rowsum (g : Digraph V) (n : V) (hW : outWeight g n ≠ 0) :
    lsum (stochSucc g n) (fun e => e.2) = 1 := by
  unfold stochSucc
  rw [lsum_map, lsum_div]
  exact div_self hW

theorem outWeight_pos {g : Digraph V} (hwf : Wf g) {n : V} (hn : n ∈ g.nodes)
    (hne : g.succ n ≠ []) : 0 < outWeight g n :=
  lsum_pos hne (fun e he => (hwf.2.2 n hn e he).2)

theorem stochSucc_entry_nonneg {g : Digraph V} (hwf : Wf g) {n : V}
    (hn : n ∈ g.nodes) : ∀ e ∈ stochSucc g n, 0 ≤ e.2 := by
  intro e he
  unfold stochSucc at he
  rcases List.mem_map.mp he with ⟨e0, he0, rfl⟩
  by_cases hs : g.succ n = []
  · rw [hs] at he0; cases he0
  · exact div_nonneg (hwf.2.2 n hn e0 he0).2.le (outWeight_pos hwf hn hs).le

/-- Row sum of the stochastic transition out of `n` over the whole node set:
`1` for a node with out-edges, `0` for a dangling node. -/
theorem nodes_weightTo_sum {g : Digraph V} (hwf : Wf g) {n : V} (hn : n ∈ g.nodes) :
    lsum g.nodes (fun m => weightTo (stochSucc g n) m) =
      if (g.succ n).isEmpty then 0 else 1 := by
  by_cases hs : (g.succ n).isEmpty
  · rw [if_pos hs]
    have h0 : stochSucc g n = [] := by
      unfold stochSucc
      rw [List.isEmpty_iff.mp hs]
      rfl
    rw [lsum_congr (g := fun _ => 0) (fun m _ => by rw [h0, weightTo_nil]), lsum_zero]
  · rw [if_neg hs]
    unfold weightTo
    rw [lsum_swap]
    have hsub : ∀ e ∈ stochSucc g n, e.1 ∈ g.nodes := by
      intro e he
      rcases List.mem_map.mp he with ⟨e0, he0, rfl⟩
      exact (hwf.2.2 n hn e0 he0).1
    rw [lsum_congr (g := fun e => e.2) (fun e he => lsum_ite_eq2 hwf.1 (hsub e he) e.2)]
    exact stochSucc_rowsum g n
      (ne_of_gt (outWeight_pos hwf hn (fun h => hs (by rw [h]; rfl))))

/-- Total mass after one iteration, for arbitrary dangling-weight and
personalization vectors. -/
theorem pageRankStep_sum (β : ℚ) (g : Digraph V) (w pers prev : V → ℚ) (hwf : Wf g) :
    lsum g.nodes (pageRankStep β g w pers prev) =
      β * (lsum g.nodes prev - lsum (dangling_nodes g) prev) +
        dangle_sum β g prev * lsum g.nodes w + (1 - β) * lsum g.nodes pers := by
  rw [lsum_congr (g := fun m =>
      β * lsum g.nodes (fun n => prev n * weightTo (stochSucc g n) m) +
        (dangle_sum β g prev * w m + (1 - β) * pers m))
    (fun m hm => by rw [pageRankStep_apply β g w pers prev hwf.1 m, if_pos hm])]
  rw [lsum_add, lsum_add, lsum_mul, lsum_mul, lsum_mul, lsum_swap]
  rw [lsum_congr (g := fun n => if (g.succ n).isEmpty then 0 else prev n)
    (fun n hn => by
      rw [lsum_mul, nodes_weightTo_sum hwf hn]
      by_cases hs : (g.succ n).isEmpty
      · simp [hs]
      · simp [hs])]
  rw [lsum_filter_compl]
  unfold dangling_nodes
  ring

theorem iterR_zero (β : ℚ) (g : Digraph V) (w pers R0 : V → ℚ) :
    iterR β g w pers R0 0 = R0 := rfl

theorem iterR_succ (β : ℚ) (g : Digraph V) (w pers R0 : V → ℚ) (t : ℕ) :
    iterR β g w pers R0 (t + 1) = pageRankStep β g w pers (iterR β g w pers R0 t) := rfl

theorem iterR_shift (β : ℚ) (g : Digraph V) (w pers R0 : V → ℚ) (t : ℕ) :
    iterR β g w pers R0 (t + 1) = iterR β g w pers (pageRankStep β g w pers R0) t := by
  induction t with
  | zero => rfl
  | succ t ih => rw [iterR_succ, ih]; rfl

theorem pageRankLoop_zero (β ε : ℚ) (g : Digraph V) (w pers R0 : V → ℚ) :
    pageRankLoop β ε g w pers 0 R0 = .error .MaxIterationsExceededError := rfl

theorem pageRankLoop_succ (β ε : ℚ) (g : Digraph V) (w pers : V → ℚ) (k : ℕ)
    (prev : V → ℚ) :
    pageRankLoop β ε g w pers (k + 1) prev =
      if total_error g.nodes prev (pageRankStep β g w pers prev) <
          (g.nodes.length : ℚ) * ε
      then .ok (pageRankStep β g w pers prev)
      else pageRankLoop β ε g w pers k (pageRankStep β g w pers prev) := rfl

/-- The loop succeeds exactly by returning the vector of the first iteration
whose total error passes the convergence test. -/
theorem pageRankLoop_ok_iff (β ε : ℚ) (g : Digraph V) (w pers : V → ℚ) :
    ∀ (K : ℕ) (R0 R : V → ℚ),
      pageRankLoop β ε g w pers K R0 = .ok R ↔
        ∃ t, t < K ∧
          (∀ s, s < t → ¬ total_error g.nodes (iterR β g w pers R0 s)
              (iterR β g w pers R0 (s + 1)) < (g.nodes.length : ℚ) * ε) ∧
          total_error g.nodes (iterR β g w pers R0 t) (iterR β g w pers R0 (t + 1)) <
            (g.nodes.length : ℚ) * ε ∧
          R = iterR β g w pers R0 (t + 1)
  | 0, R0, R => by
    constructor
    · intro h
      exact absurd h (by simp [pageRankLoop_zero])
    · rintro ⟨t, ht, -⟩
      exact absurd ht (Nat.not_lt_zero t)
  | k + 1, R0, R => by
    have hsh : ∀ u, iterR β g w pers R0 (u + 1) =
        iterR β g w pers (pageRankStep β g w pers R0) u :=
      iterR_shift β g w pers R0
    rw [pageRankLoop_succ]
    by_cases hc : total_error g.nodes R0 (pageRankStep β g w pers R0) <
        (g.nodes.length : ℚ) * ε
    · rw [if_pos hc]
      constructor
      · intro h
        exact ⟨0, Nat.succ_pos k, fun s hs => absurd hs (Nat.not_lt_zero s), hc,
          (Except.ok.inj h).symm⟩
      · rintro ⟨t, ht, hall, hQ, hR⟩
        cases t with
        | zero => rw [hR]; rfl
        | succ s => exact absurd hc (hall 0 (Nat.succ_pos s))
    · rw [if_neg hc, pageRankLoop_ok_iff β ε g w pers k (pageRankStep β g w pers R0) R]
      constructor
      · rintro ⟨t, ht, hall, hQ, hR⟩
        refine ⟨t + 1, Nat.succ_lt_succ ht, fun s hs => ?_, ?_, ?_⟩
        · cases s with
          | zero => exact hc
          | succ u =>
            simp only [hsh]
            exact hall u (Nat.lt_of_succ_lt_succ hs)
        · simp only [hsh]
          exact hQ
        · simp only [hsh]
          exact hR
      · rintro ⟨t, ht, hall, hQ, hR⟩
        cases t with
        | zero => exact absurd hQ hc
        | succ s =>
          refine ⟨s, Nat.lt_of_succ_lt_succ ht, fun u hu => ?_, ?_, ?_⟩
          · have h2 := hall (u + 1) (Nat.succ_lt_succ hu)
            simp only [hsh] at h2
            exact h2
          · simp only [hsh] at hQ
            exact hQ
          · simp only [hsh] at hR
            exact hR

/-- The loop fails (with the max-iterations error) exactly when no iteration
within the budget passes the convergence test. -/
theorem pageRankLoop_error_iff (β ε : ℚ) (g : Digraph V) (w pers : V → ℚ) :
    ∀ (K : ℕ) (R0 : V → ℚ),
      pageRankLoop β ε g w pers K R0 = .error .MaxIterationsExceededError ↔
        ∀ t, t < K → ¬ total_error g.nodes (iterR β g w pers R0 t)
            (iterR β g w pers R0 (t + 1)) < (g.nodes.length : ℚ) * ε
  | 0, R0 => by
    constructor
    · intro _ t ht
      exact absurd ht (Nat.not_lt_zero t)
    · intro _
      exact pageRankLoop_zero β ε g w pers R0
  | k + 1, R0 => by
    have hsh : ∀ u, iterR β g w pers R0 (u + 1) =
        iterR β g w pers (pageRankStep β g w pers R0) u :=
      iterR_shift β g w pers R0
    rw [pageRankLoop_succ]
    by_cases hc : total_error g.nodes R0 (pageRankStep β g w pers R0) <
        (g.nodes.length : ℚ) * ε
    · rw [if_pos hc]
      constructor
      · intro h
        exact absurd h (by simp)
      · intro hall
        exact absurd hc (hall 0 (Nat.succ_pos k))
    · rw [if_neg hc, pageRankLoop_error_iff β ε g w pers k (pageRankStep β g w pers R0)]
      constructor
      · intro hall t ht
        cases t with
        | zero => exact hc
        | succ u =>
          simp only [hsh]
          exact hall u (Nat.lt_of_succ_lt_succ ht)
      · intro hall t ht
        have h2 := hall (t + 1) (Nat.succ_lt_succ ht)
        simp only [hsh] at h2
        exact h2

/-- The loop only ever fails with the max-iterations error. -/
theorem pageRankLoop_error_max (β ε : ℚ) (g : Digraph V) (w pers : V → ℚ) :
    ∀ (K : ℕ) (R0 : V → ℚ) (e : PRError),
      pageRankLoop β ε g w pers K R0 = .error e → e = .MaxIterationsExceededError
  | 0, R0, e, h => (Except.error.inj h).symm
  | k + 1, R0, e, h => by
    rw [pageRankLoop_succ] at h
    by_cases hc : total_error g.nodes R0 (pageRankStep β g w pers R0) <
        (g.nodes.length : ℚ) * ε
    · rw [if_pos hc] at h
      exact absurd h (by simp)
    · rw [if_neg hc] at h
      exact pageRankLoop_error_max β ε g w pers k (pageRankStep β g w pers R0) e h

theorem pageRankStep_nonneg {β : ℚ} {g : Digraph V} {w pers prev : V → ℚ}
    (hwf : Wf g) (hβ : 0 ≤ β) (hβ1 : β ≤ 1) (hw : ∀ x, 0 ≤ w x)
    (hp : ∀ x, 0 ≤ pers x) (hprev : ∀ x, 0 ≤ prev x) :
    ∀ m, 0 ≤ pageRankStep β g w pers prev m := by
  intro m
  rw [pageRankStep_apply β g w pers prev hwf.1 m]
  have h1 : 0 ≤ β * lsum g.nodes (fun n => prev n * weightTo (stochSucc g n) m) :=
    mul_nonneg hβ (lsum_nonneg (fun n hn =>
      mul_nonneg (hprev n) (weightTo_nonneg (stochSucc_entry_nonneg hwf hn) m)))
  have hds : 0 ≤ dangle_sum β g prev :=
    mul_nonneg hβ (lsum_nonneg (fun a _ => hprev a))
  by_cases hm : m ∈ g.nodes
  · rw [if_pos hm]
    have h2 : 0 ≤ dangle_sum β g prev * w m + (1 - β) * pers m :=
      add_nonneg (mul_nonneg hds (hw m)) (mul_nonneg (by linarith) (hp m))
    linarith
  · rw [if_neg hm]
    linarith

theorem pageRankStep_lb {β : ℚ} {g : Digraph V} {w pers prev : V → ℚ}
    (hwf : Wf g) (hβ : 0 ≤ β) (hw : ∀ x, 0 ≤ w x) (hprev : ∀ x, 0 ≤ prev x)
    {m : V} (hm : m ∈ g.nodes) :
    (1 - β) * pers m ≤ pageRankStep β g w pers prev m := by
  rw [pageRankStep_apply β g w pers prev hwf.1 m, if_pos hm]
  have h1 : 0 ≤ β * lsum g.nodes (fun n => prev n * weightTo (stochSucc g n) m) :=
    mul_nonneg hβ (lsum_nonneg (fun n hn =>
      mul_nonneg (hprev n) (weightTo_nonneg (stochSucc_entry_nonneg hwf hn) m)))
  have hds : 0 ≤ dangle_sum β g prev :=
    mul_nonneg hβ (lsum_nonneg (fun a _ => hprev a))
  have h2 : 0 ≤ dangle_sum β g prev * w m := mul_nonneg hds (hw m)
  linarith

/-- Any vector the loop returns went through at least one iteration, so every
graph node carries at least the random-surf contribution. -/
theorem pageRankLoop_ok_lb {β ε : ℚ} {g : Digraph V} {w pers : V → ℚ}
    (hwf : Wf g) (hβ : 0 ≤ β) (hβ1 : β ≤ 1) (hw : ∀ x, 0 ≤ w x)
    (hp : ∀ x, 0 ≤ pers x) :
    ∀ (K : ℕ) (R0 R : V → ℚ), (∀ x, 0 ≤ R0 x) →
      pageRankLoop β ε g w pers K R0 = .ok R →
      ∀ m ∈ g.nodes, (1 - β) * pers m ≤ R m := by
  intro K
  induction K with
  | zero =>
    intro R0 R h0 h
    exact absurd h (by simp [pageRankLoop_zero])
  | succ k ih =>
    intro R0 R h0 h
    rw [pageRankLoop_succ] at h
    by_cases hc : total_error g.nodes R0 (pageRankStep β g w pers R0) <
        (g.nodes.length : ℚ) * ε
    · rw [if_pos hc] at h
      intro m hm
      rw [← Except.ok.inj h]
      exact pageRankStep_lb hwf hβ hw h0 hm
    · rw [if_neg hc] at h
      exact ih (pageRankStep β g w pers R0) R
        (pageRankStep_nonneg hwf hβ hβ1 hw hp h0) h

theorem calc_exG1_ok :
    calculate_page_rank (45 / 100) (1 / 1000000) 150 exG1 = .ok exStep := by
  have hstep1 : pageRankStep (45 / 100) exG1 (uniformPers exG1) (uniformPers exG1)
      (initialRank exG1) 1 = 1 := by
    simp [pageRankStep, nodeBody, distribute, exG1, updf, dangle_sum, dangling_nodes,
      stochSucc, uniformPers, initialRank, lsum, outWeight]
  unfold calculate_page_rank
  rw [if_neg (by decide), show (150 : ℕ) = 149 + 1 from rfl, pageRankLoop_succ,
    if_pos ?hc]
  · rfl
  case hc =>
    have herr : total_error exG1.nodes (initialRank exG1)
        (pageRankStep (45 / 100) exG1 (uniformPers exG1) (uniformPers exG1)
          (initialRank exG1)) = 0 := by
      unfold total_error
      rw [lsum_congr (g := fun _ => 0) (fun n hn => by
        have hn1 : n = 1 := by simpa [exG1] using hn
        subst hn1
        rw [hstep1]
        norm_num [initialRank, exG1]), lsum_zero]
    rw [herr]
    norm_num [exG1]

/-- C1: starting from the rank vector that assigns `1/N` to every node, each
iteration computes the next vector from the previous one exactly as: the
dangling mass `β * Σ R[d]` over dangling nodes, plus `β * R[n] * p`
accumulated for every transition entry `(n, m, p)`, plus
`danglingMass * Personalization[n] + (1 - β) * Personalization[n]` at every
node. -/
theorem c1_iteration_formula {g : Digraph V} (hwf : Wf g) (β : ℚ) (pers : V → ℚ)
    (t : ℕ) (m : V) (hm : m ∈ g.nodes) :
    initialRank g m = 1 / (g.nodes.length : ℚ) ∧
    iterR β g pers pers (initialRank g) (t + 1) m =
      β * lsum g.nodes (fun n =>
        iterR β g pers pers (initialRank g) t n * weightTo (stochSucc g n) m) +
      dangle_sum β g (iterR β g pers pers (initialRank g) t) * pers m +
      (1 - β) * pers m := by
  refine ⟨rfl, ?_⟩
  rw [iterR_succ, pageRankStep_apply β g pers pers _ hwf.1 m, if_pos hm]
  ring

theorem c1_iteration_formula_witness :
    initialRank exG2 2 = 1 / (exG2.nodes.length : ℚ) ∧
    iterR (45 / 100) exG2 (uniformPers exG2) (uniformPers exG2) (initialRank exG2) 1 2 =
      (45 / 100) * lsum exG2.nodes (fun n =>
        iterR (45 / 100) exG2 (uniformPers exG2) (uniformPers exG2) (initialRank exG2) 0 n *
          weightTo (stochSucc exG2 n) 2) +
      dangle_sum (45 / 100) exG2
        (iterR (45 / 100) exG2 (uniformPers exG2) (uniformPers exG2) (initialRank exG2) 0) *
        uniformPers exG2 2 +
      (1 - 45 / 100) * uniformPers exG2 2 :=
  c1_iteration_formula (by decide) (45 / 100) (uniformPers exG2) 0 2 (by decide)

/-- C2: mass conservation — when the personalization vector and the starting
rank vector both sum to 1 over the node set, the rank vector at every
iteration boundary sums to 1 (exactly, in rational arithmetic). -/
theorem c2_mass_conservation {g : Digraph V} (hwf : Wf g) (β : ℚ)
    (pers R0 : V → ℚ) (hp : lsum g.nodes pers = 1) (hR0 : lsum g.nodes R0 = 1)
    (t : ℕ) : lsum g.nodes (iterR β g pers pers R0 t) = 1 := by
  induction t with
  | zero => exact hR0
  | succ t ih =>
    rw [iterR_succ, pageRankStep_sum β g pers pers _ hwf, hp, ih]
    unfold dangle_sum
    ring

theorem c2_mass_conservation_witness :
    lsum exG2.nodes
      (iterR (45 / 100) exG2 (uniformPers exG2) (uniformPers exG2) (initialRank exG2) 3) = 1 :=
  c2_mass_conservation (by decide) (45 / 100) (uniformPers exG2) (initialRank exG2)
    (by norm_num [lsum, uniformPers, exG2]) (by norm_num [lsum, initialRank, exG2]) 3

/-- C3: after each iteration the loop compares the total L1 change
`Σ |next - prev|` against `N * ε` and returns the new vector as converged
exactly at the first iteration passing that test. -/
theorem c3_convergence_test (β ε : ℚ) (g : Digraph V) (w pers : V → ℚ)
    (K : ℕ) (R0 R : V → ℚ) :
    pageRankLoop β ε g w pers K R0 = .ok R ↔
      ∃ t, t < K ∧
        (∀ s, s < t → ¬ total_error g.nodes (iterR β g w pers R0 s)
            (iterR β g w pers R0 (s + 1)) < (g.nodes.length : ℚ) * ε) ∧
        total_error g.nodes (iterR β g w pers R0 t) (iterR β g w pers R0 (t + 1)) <
          (g.nodes.length : ℚ) * ε ∧
        R = iterR β g w pers R0 (t + 1) :=
  pageRankLoop_ok_iff β ε g w pers K R0 R

/-- C4 counterexample: the configured damping factor is not 0.85 — the module
default is `beta = 0.45`, so the claimed conjunction of defaults is false. -/
theorem c4_defaults_counterexample :
    ¬(beta = 85 / 100 ∧ 0 < beta ∧ beta < 1 ∧ maximum_iterations = 150 ∧
      max_error = 1 / 1000000) := by
  intro h
  have hb := h.1
  rw [show beta = 45 / 100 from rfl] at hb
  norm_num at hb

/-- C4 amended: the damping factor defaults to 0.45 (inside `(0,1)`), the
iteration cap defaults to 150 and the per-node tolerance defaults to 1e-6. -/
theorem c4_defaults_amended :
    beta = 45 / 100 ∧ 0 < beta ∧ beta < 1 ∧ maximum_iterations = 150 ∧
      max_error = 1 / 1000000 := by
  refine ⟨rfl, ?_, ?_, rfl, rfl⟩ <;> rw [show beta = 45 / 100 from rfl] <;> norm_num

/-- C6: with an iteration budget of 0 the loop fails immediately with the
max-iterations error; in general it fails with that error (returning no
vector) exactly when no iteration within the budget passes the convergence
test; and on a non-empty graph `calculate_page_rank` with `K = 0` fails that
way immediately. -/
theorem c6_max_iterations (β ε : ℚ) (g : Digraph V) (w pers : V → ℚ)
    (K : ℕ) (R0 : V → ℚ) :
    pageRankLoop β ε g w pers 0 R0 = .error .MaxIterationsExceededError ∧
    (pageRankLoop β ε g w pers K R0 = .error .MaxIterationsExceededError ↔
      ∀ t, t < K → ¬ total_error g.nodes (iterR β g w pers R0 t)
          (iterR β g w pers R0 (t + 1)) < (g.nodes.length : ℚ) * ε) ∧
    (g.nodes.length ≠ 0 →
      calculate_page_rank β ε 0 g = .error .MaxIterationsExceededError) := by
  refine ⟨pageRankLoop_zero β ε g w pers R0,
    pageRankLoop_error_iff β ε g w pers K R0, fun h => ?_⟩
  unfold calculate_page_rank
  rw [if_neg h]
  exact pageRankLoop_zero β ε g (uniformPers g) (uniformPers g) (initialRank g)

theorem c6_max_iterations_witness :
    pageRankLoop (45 / 100) (1 / 1000000) exG1 (uniformPers exG1) (uniformPers exG1)
        0 (initialRank exG1) = .error .MaxIterationsExceededError ∧
    calculate_page_rank (45 / 100) (1 / 1000000) 0 exG1 =
      .error .MaxIterationsExceededError :=
  ⟨(c6_max_iterations (45 / 100) (1 / 1000000) exG1 (uniformPers exG1)
      (uniformPers exG1) 0 (initialRank exG1)).1,
   (c6_max_iterations (45 / 100) (1 / 1000000) exG1 (uniformPers exG1)
      (uniformPers exG1) 0 (initialRank exG1)).2.2 (by decide)⟩

/-- C7: the start of `calculate_page_rank` fails with the empty-graph error
exactly when the graph has no nodes, and a non-empty graph consisting only of
dangling nodes is accepted — it even converges in the first iteration. -/
theorem c7_empty_graph {g : Digraph V} (hwf : Wf g) (β ε : ℚ) (K : ℕ) :
    (calculate_page_rank β ε K g = .error .EmptyGraphError ↔ g.nodes = []) ∧
    (g.nodes ≠ [] → (∀ n ∈ g.nodes, g.succ n = []) → 0 < ε → 1 ≤ K →
      ∃ R, calculate_page_rank β ε K g = .ok R) := by
  constructor
  · constructor
    · intro h
      by_cases hlen : g.nodes.length = 0
      · exact List.length_eq_zero.mp hlen
      · unfold calculate_page_rank at h
        rw [if_neg hlen] at h
        have := pageRankLoop_error_max β ε g (uniformPers g) (uniformPers g) K
          (initialRank g) .EmptyGraphError h
        exact absurd this (by decide)
    · intro h
      unfold calculate_page_rank
      rw [if_pos (by rw [h]; rfl)]
  · intro hne hd hε hK
    obtain ⟨k, rfl⟩ : ∃ k, K = k + 1 := ⟨K - 1, by omega⟩
    have hlen : g.nodes.length ≠ 0 := fun h0 => hne (List.length_eq_zero.mp h0)
    have hcast : (g.nodes.length : ℚ) ≠ 0 := Nat.cast_ne_zero.mpr hlen
    have hstep : ∀ m ∈ g.nodes,
        pageRankStep β g (uniformPers g) (uniformPers g) (initialRank g) m =
          initialRank g m := by
      intro m hm
      rw [pageRankStep_apply β g (uniformPers g) (uniformPers g) (initialRank g)
        hwf.1 m, if_pos hm]
      rw [lsum_congr (g := fun _ => 0) (fun n hn => by
        rw [show stochSucc g n = [] from by unfold stochSucc; rw [hd n hn]; rfl,
          weightTo_nil, mul_zero]), lsum_zero]
      have hdang : dangling_nodes g = g.nodes := by
        unfold dangling_nodes
        rw [List.filter_eq_self.mpr (fun a ha => by rw [hd a ha]; rfl)]
      have hsum : lsum g.nodes (initialRank g) = 1 := by
        unfold initialRank
        rw [lsum_const, mul_one_div, div_self hcast]
      unfold dangle_sum
      rw [hdang, hsum]
      unfold uniformPers initialRank
      ring
    refine ⟨pageRankStep β g (uniformPers g) (uniformPers g) (initialRank g), ?_⟩
    unfold calculate_page_rank
    rw [if_neg hlen, pageRankLoop_succ, if_pos ?hc]
    case hc =>
      have herr : total_error g.nodes (initialRank g)
          (pageRankStep β g (uniformPers g) (uniformPers g) (initialRank g)) = 0 := by
        unfold total_error
        rw [lsum_congr (g := fun _ => 0) (fun n hn => by rw [hstep n hn]; simp),
          lsum_zero]
      rw [herr]
      exact mul_pos (by exact_mod_cast Nat.pos_of_ne_zero hlen) hε

theorem c7_empty_graph_witness :
    (calculate_page_rank (45 / 100) (1 / 1000000) 150 exG1 = .error .EmptyGraphError ↔
      exG1.nodes = []) ∧
    ∃ R, calculate_page_rank (45 / 100) (1 / 1000000) 150 exG1 = .ok R :=
  ⟨(c7_empty_graph (by decide) (45 / 100) (1 / 1000000) 150).1,
   (c7_empty_graph (by decide) (45 / 100) (1 / 1000000) 150).2 (by decide) (by decide)
     (by norm_num) (by norm_num)⟩

/-- C9: in uniform (non-personalized) mode with `β ∈ (0,1)`, every entry of a
returned rank vector is at least `(1 - β) / N`, hence strictly positive. -/
theorem c9_lower_bound {g : Digraph V} (hwf : Wf g) (β ε : ℚ) (K : ℕ)
    (hβ0 : 0 < β) (hβ1 : β < 1) {R : V → ℚ}
    (hok : calculate_page_rank β ε K g = .ok R) :
    ∀ m ∈ g.nodes, (1 - β) / (g.nodes.length : ℚ) ≤ R m ∧ 0 < R m := by
  have hlen : g.nodes.length ≠ 0 := by
    intro h0
    unfold calculate_page_rank at hok
    rw [if_pos h0] at hok
    exact absurd hok (by simp)
  unfold calculate_page_rank at hok
  rw [if_neg hlen] at hok
  have hu : ∀ x, 0 ≤ uniformPers g x := fun x => by
    unfold uniformPers
    positivity
  have h1 := pageRankLoop_ok_lb hwf hβ0.le hβ1.le hu hu K (initialRank g) R
    (fun x => by unfold initialRank; positivity) hok
  intro m hm
  have h2 := h1 m hm
  have h3 : (1 - β) * uniformPers g m = (1 - β) / (g.nodes.length : ℚ) := by
    unfold uniformPers
    rw [mul_one_div]
  rw [h3] at h2
  have hpos : 0 < (1 - β) / (g.nodes.length : ℚ) :=
    div_pos (by linarith) (by exact_mod_cast Nat.pos_of_ne_zero hlen)
  exact ⟨h2, lt_of_lt_of_le hpos h2⟩

theorem c9_lower_bound_witness :
    (1 - 45 / 100) / (exG1.nodes.length : ℚ) ≤ exStep 1 ∧ 0 < exStep 1 :=
  c9_lower_bound (by decide) (45 / 100) (1 / 1000000) 150 (by norm_num)
    (by norm_num) calc_exG1_ok 1 (by decide)

theorem insertDesc_perm (x : V × ℚ) (l : List (V × ℚ)) :
    (insertDesc x l).Perm (x :: l) := by
  induction l with
  | nil => exact List.Perm.refl _
  | cons y ys ih =>
    show (if y.2 < x.2 then x :: y :: ys else y :: insertDesc x ys).Perm _
    by_cases h : y.2 < x.2
    · rw [if_pos h]
    · rw [if_neg h]
      exact (ih.cons y).trans (List.Perm.swap x y ys)

theorem insertDesc_sorted {x : V × ℚ} {l : List (V × ℚ)}
    (hl : List.Pairwise (fun a b => b.2 ≤ a.2) l) :
    List.Pairwise (fun a b => b.2 ≤ a.2) (insertDesc x l) := by
  induction l with
  | nil => simp [insertDesc]
  | cons y ys ih =>
    rw [List.pairwise_cons] at hl
    show List.Pairwise _ (if y.2 < x.2 then x :: y :: ys else y :: insertDesc x ys)
    by_cases h : y.2 < x.2
    · rw [if_pos h]
      refine List.pairwise_cons.mpr ⟨?_, List.pairwise_cons.mpr hl⟩
      intro b hb
      rcases List.mem_cons.mp hb with rfl | hb
      · exact h.le
      · exact (hl.1 b hb).trans h.le
    · rw [if_neg h]
      refine List.pairwise_cons.mpr ⟨?_, ih hl.2⟩
      intro b hb
      rcases List.mem_cons.mp ((insertDesc_perm x ys).mem_iff.mp hb) with rfl | hb
      · exact not_lt.mp h
      · exact hl.1 b hb

theorem foldl_insertDesc_perm (l acc : List (V × ℚ)) :
    (l.foldl (fun acc x => insertDesc x acc) acc).Perm (acc ++ l) := by
  induction l generalizing acc with
  | nil => simp
  | cons x l ih =>
    show (l.foldl (fun acc x => insertDesc x acc) (insertDesc x acc)).Perm _
    refine (ih (insertDesc x acc)).trans ?_
    refine (((insertDesc_perm x acc).append_right l).trans ?_)
    exact List.perm_middle.symm

theorem foldl_insertDesc_sorted (l : List (V × ℚ)) :
    ∀ acc, List.Pairwise (fun a b => b.2 ≤ a.2) acc →
      List.Pairwise (fun a b => b.2 ≤ a.2) (l.foldl (fun acc x => insertDesc x acc) acc) := by
  induction l with
  | nil => intro acc h; exact h
  | cons x l ih =>
    intro acc h
    exact ih (insertDesc x acc) (insertDesc_sorted h)

theorem insertDesc_at_end {x : V × ℚ} {acc : List (V × ℚ)}
    (h : ∀ y ∈ acc, x.2 ≤ y.2) : insertDesc x acc = acc ++ [x] := by
  induction acc with
  | nil => rfl
  | cons y ys ih =>
    show (if y.2 < x.2 then x :: y :: ys else y :: insertDesc x ys) = _
    rw [if_neg (not_lt.mpr (h y (by simp)))]
    rw [ih (fun z hz => h z (by simp [hz]))]
    rfl

theorem foldl_insertDesc_sorted_id (l : List (V × ℚ)) :
    ∀ acc, List.Pairwise (fun a b => b.2 ≤ a.2) acc →
      List.Pairwise (fun a b => b.2 ≤ a.2) l →
      (∀ y ∈ acc, ∀ x ∈ l, x.2 ≤ y.2) →
      l.foldl (fun acc x => insertDesc x acc) acc = acc ++ l := by
  induction l with
  | nil => intro acc _ _ _; simp
  | cons x l ih =>
    intro acc hacc hl hcross
    rw [List.pairwise_cons] at hl
    show l.foldl (fun acc x => insertDesc x acc) (insertDesc x acc) = _
    rw [insertDesc_at_end (fun y hy => hcross y hy x (by simp))]
    rw [ih (acc ++ [x]) ?hsorted hl.2 ?hcross2]
    · simp
    case hsorted =>
      rw [List.pairwise_append]
      exact ⟨hacc, by simp, fun a ha b hb => by
        rw [List.mem_singleton.mp hb]
        exact hcross a ha x (by simp)⟩
    case hcross2 =>
      intro y hy z hz
      rcases List.mem_append.mp hy with hy | hy
      · exact hcross y hy z (by simp [hz])
      · rw [List.mem_singleton.mp hy]
        exact hl.1 z hz

theorem filter_insertDesc_ne {x : V × ℚ} {q : ℚ} (hx : ¬ x.2 = q)
    (acc : List (V × ℚ)) :
    (insertDesc x acc).filter (fun e => decide (e.2 = q)) =
      acc.filter (fun e => decide (e.2 = q)) := by
  induction acc with
  | nil =>
    show ([x].filter _) = _
    rw [List.filter_cons_of_neg (by simpa using hx)]
  | cons y ys ih =>
    show ((if y.2 < x.2 then x :: y :: ys else y :: insertDesc x ys).filter _) = _
    by_cases h : y.2 < x.2
    · rw [if_pos h, List.filter_cons_of_neg (by simpa using hx)]
    · rw [if_neg h]
      by_cases hy : y.2 = q
      · rw [List.filter_cons_of_pos (by simpa using hy),
          List.filter_cons_of_pos (by simpa using hy), ih]
      · rw [List.filter_cons_of_neg (by simpa using hy),
          List.filter_cons_of_neg (by simpa using hy), ih]

theorem filter_rank_none {l : List (V × ℚ)} {q : ℚ} (h : ∀ e ∈ l, ¬ e.2 = q) :
    l.filter (fun e => decide (e.2 = q)) = [] := by
  induction l with
  | nil => rfl
  | cons a l ih =>
    rw [List.filter_cons_of_neg (by simpa using h a (by simp))]
    exact ih (fun e he => h e (by simp [he]))

theorem filter_insertDesc_eq {x : V × ℚ} {q : ℚ} (hx : x.2 = q) :
    ∀ {acc : List (V × ℚ)}, List.Pairwise (fun a b => b.2 ≤ a.2) acc →
    (insertDesc x acc).filter (fun e => decide (e.2 = q)) =
      acc.filter (fun e => decide (e.2 = q)) ++ [x] := by
  intro acc
  induction acc with
  | nil =>
    intro _
    show ([x].filter _) = _
    rw [List.filter_cons_of_pos (by simpa using hx)]
    rfl
  | cons y ys ih =>
    intro hs
    rw [List.pairwise_cons] at hs
    show ((if y.2 < x.2 then x :: y :: ys else y :: insertDesc x ys).filter _) = _
    by_cases h : y.2 < x.2
    · rw [if_pos h]
      have hy : ¬ y.2 = q := by
        rw [← hx]
        exact ne_of_lt h
      have hnil : (y :: ys).filter (fun e => decide (e.2 = q)) = [] := by
        refine filter_rank_none (fun z hz => ?_)
        rcases List.mem_cons.mp hz with rfl | hz
        · exact hy
        · rw [← hx]
          exact ne_of_lt (lt_of_le_of_lt (hs.1 z hz) h)
      rw [List.filter_cons_of_pos (by simpa using hx), hnil]
      rfl
    · rw [if_neg h]
      by_cases hy : y.2 = q
      · rw [List.filter_cons_of_pos (by simpa using hy),
          List.filter_cons_of_pos (by simpa using hy), ih hs.2]
        rfl
      · rw [List.filter_cons_of_neg (by simpa using hy),
          List.filter_cons_of_neg (by simpa using hy), ih hs.2]

theorem filter_foldl_insertDesc (q : ℚ) :
    ∀ (l acc : List (V × ℚ)), List.Pairwise (fun a b => b.2 ≤ a.2) acc →
      (l.foldl (fun acc x => insertDesc x acc) acc).filter (fun e => decide (e.2 = q)) =
        acc.filter (fun e => decide (e.2 = q)) ++ l.filter (fun e => decide (e.2 = q))
  | [], acc, _ => by simp
  | x :: l, acc, hs => by
    show ((l.foldl _ (insertDesc x acc)).filter _) = _
    rw [filter_foldl_insertDesc q l (insertDesc x acc) (insertDesc_sorted hs)]
    by_cases hx : x.2 = q
    · rw [filter_insertDesc_eq hx hs, List.filter_cons_of_pos (by simpa using hx)]
      simp
    · rw [filter_insertDesc_ne hx acc, List.filter_cons_of_neg (by simpa using hx)]

/-- Stability of the ranking: for every rank value, the equal-rank elements
appear in the output in exactly their input order. -/
theorem sorted_page_ranks_stable (l : List (V × ℚ)) (q : ℚ) :
    (sorted_page_ranks l).filter (fun e => decide (e.2 = q)) =
      l.filter (fun e => decide (e.2 = q)) := by
  show ((l.foldl (fun acc x => insertDesc x acc) []).filter _) = _
  rw [filter_foldl_insertDesc q l [] (by simp)]
  rfl

/-- C8 counterexample: on the tied input `[(2, 1), (1, 1)]` the code's
ranking keeps the input order `[(2, 1), (1, 1)]` (Python's `sorted` is
stable), while a ranking breaking equal-rank ties by the node-identifier
order produces `[(1, 1), (2, 1)]` — so ties are not broken by an identifier
order. -/
theorem c8_ranking_counterexample :
    sorted_page_ranks [((2 : ℕ), (1 : ℚ)), (1, 1)] = [(2, 1), (1, 1)] ∧
    specRankingLex [((2 : ℕ), (1 : ℚ)), (1, 1)] = [(1, 1), (2, 1)] ∧
    sorted_page_ranks [((2 : ℕ), (1 : ℚ)), (1, 1)] ≠
      specRankingLex [((2 : ℕ), (1 : ℚ)), (1, 1)] :=
  ⟨by decide, by decide, by decide⟩

/-- C8 amended: the produced sequence is sorted by rank descending and is a
permutation of the input pairs; equal-rank ties keep the input sequence's
order (stability: filtering the output at any rank value returns exactly the
input's subsequence at that rank) rather than following an identifier order;
the operation is pure, and re-ranking an already ranked sequence returns it
unchanged, so calling it twice on the same rank vector yields the same
ordered sequence. -/
theorem c8_ranking_amended (l : List (V × ℚ)) :
    List.Pairwise (fun a b => b.2 ≤ a.2) (sorted_page_ranks l) ∧
    (sorted_page_ranks l).Perm l ∧
    sorted_page_ranks (sorted_page_ranks l) = sorted_page_ranks l ∧
    ∀ q : ℚ, (sorted_page_ranks l).filter (fun e => decide (e.2 = q)) =
      l.filter (fun e => decide (e.2 = q)) := by
  have hsorted : List.Pairwise (fun a b => b.2 ≤ a.2) (sorted_page_ranks l) :=
    foldl_insertDesc_sorted l [] (by simp)
  refine ⟨hsorted, by simpa using foldl_insertDesc_perm l [], ?_,
    fun q => sorted_page_ranks_stable l q⟩
  show (sorted_page_ranks l).foldl (fun acc x => insertDesc x acc) [] = _
  rw [foldl_insertDesc_sorted_id (sorted_page_ranks l) [] (by simp) hsorted (by simp)]
  simp

theorem dictUpdate_absent {d : List (ℕ × ℚ)} {k : ℕ} (v : ℚ)
    (h : ∀ e ∈ d, e.1 ≠ k) : dictUpdate d k v = d ++ [(k, v)] := by
  unfold dictUpdate
  rw [if_neg]
  rintro ⟨e, he, hek⟩
  exact h e he hek

theorem dictUpdate_present {d : List (ℕ × ℚ)} {k : ℕ} (v : ℚ)
    (h : ∃ e ∈ d, e.1 = k) :
    dictUpdate d k v = d.map (fun e => if e.1 = k then (k, v) else e) := by
  unfold dictUpdate
  rw [if_pos h]

theorem dictUpdate_noop {d : List (ℕ × ℚ)} {k : ℕ} {v : ℚ}
    (hp : ∃ e ∈ d, e.1 = k) (hv : ∀ e ∈ d, e.1 = k → e = (k, v)) :
    dictUpdate d k v = d := by
  rw [dictUpdate_present v hp]
  have h2 : ∀ e ∈ d, (fun e : ℕ × ℚ => if e.1 = k then (k, v) else e) e = id e := by
    intro e he
    by_cases hek : e.1 = k
    · simp only [if_pos hek, id]
      exact (hv e he hek).symm
    · simp [hek]
  rw [List.map_congr_left h2, List.map_id]

theorem fill_fresh : ∀ (n s : ℕ) (d : List (ℕ × ℚ)), (∀ e ∈ d, e.1 < s) →
    (List.range' s n).foldl (fun d i => dictUpdate d i 0) d =
      d ++ (List.range' s n).map (fun i => (i, (0 : ℚ)))
  | 0, s, d, _ => by simp
  | n + 1, s, d, h => by
    rw [List.range'_succ]
    show (List.range' (s + 1) n).foldl _ (dictUpdate d s 0) = _
    rw [dictUpdate_absent 0 (fun e he => Nat.ne_of_lt (h e he))]
    rw [fill_fresh n (s + 1) (d ++ [(s, 0)]) ?h2]
    · simp
    case h2 =>
      intro e he
      rcases List.mem_append.mp he with he | he
      · exact Nat.lt_succ_of_lt (h e he)
      · rw [List.mem_singleton.mp he]
        exact Nat.lt_succ_self s

theorem fillVectorSet_nil :
    fillVectorSet [] = (List.range' 1 6012).map (fun i => (i, (0 : ℚ))) := by
  unfold fillVectorSet
  rw [fill_fresh 6012 1 [] (by simp)]
  simp

theorem fill_noop : ∀ (l : List ℕ) (d : List (ℕ × ℚ)),
    (∀ i ∈ l, (∃ e ∈ d, e.1 = i) ∧ ∀ e ∈ d, e.1 = i → e = (i, 0)) →
    l.foldl (fun d i => dictUpdate d i 0) d = d
  | [], _, _ => rfl
  | i :: l, d, h => by
    show l.foldl _ (dictUpdate d i 0) = d
    rw [dictUpdate_noop (h i (by simp)).1 (h i (by simp)).2]
    exact fill_noop l d (fun j hj => h j (by simp [hj]))

theorem lookup_mapRange (f : ℕ → ℚ) : ∀ (n s k : ℕ),
    List.lookup k ((List.range' s n).map (fun i => (i, f i))) =
      if k ∈ List.range' s n then some (f k) else none
  | 0, s, k => by simp
  | n + 1, s, k => by
    rw [List.range'_succ, List.map_cons]
    by_cases hk : k = s
    · subst hk
      simp
    · have hbeq : (k == s) = false := by simpa using hk
      rw [List.lookup_cons]
      rw [hbeq]
      rw [lookup_mapRange f n (s + 1) k]
      have hmem : (k ∈ s :: List.range' (s + 1) n) ↔ k ∈ List.range' (s + 1) n := by
        simp [hk]
      by_cases h2 : k ∈ List.range' (s + 1) n
      · rw [if_pos h2, if_pos (List.mem_cons.mpr (Or.inr h2))]
      · rw [if_neg h2, if_neg (fun hc => h2 (hmem.mp hc))]

theorem personalizedSetup_eq (vs0 : List (ℕ × ℚ)) (docs g : List ℕ) :
    personalizedSetup vs0 docs g =
      if ∃ n ∈ g, List.lookup n (writeCategory (fillVectorSet vs0) docs) = none then
        (writeCategory (fillVectorSet vs0) docs,
          .error .IncompletePersonalizationError)
      else (writeCategory (fillVectorSet vs0) docs,
        .ok fun k => (List.lookup k (writeCategory (fillVectorSet vs0) docs)).getD 0 /
          lsum (writeCategory (fillVectorSet vs0) docs) (fun e => e.2)) := rfl

theorem personalizedSetup_fst (vs0 : List (ℕ × ℚ)) (docs g : List ℕ) :
    (personalizedSetup vs0 docs g).1 = writeCategory (fillVectorSet vs0) docs := by
  rw [personalizedSetup_eq]
  split <;> rfl

theorem personalizedSetup_error_iff (vs0 : List (ℕ × ℚ)) (docs g : List ℕ) :
    (personalizedSetup vs0 docs g).2 = .error .IncompletePersonalizationError ↔
      ∃ n ∈ g, List.lookup n (writeCategory (fillVectorSet vs0) docs) = none := by
  rw [personalizedSetup_eq]
  by_cases h : ∃ n ∈ g, List.lookup n (writeCategory (fillVectorSet vs0) docs) = none
  · rw [if_pos h]
    exact iff_of_true rfl h
  · rw [if_neg h]
    exact iff_of_false (fun hc => by simp at hc) h

theorem personalizedSetup_ok (vs0 : List (ℕ × ℚ)) (docs g : List ℕ)
    (h : ¬∃ n ∈ g, List.lookup n (writeCategory (fillVectorSet vs0) docs) = none) :
    (personalizedSetup vs0 docs g).2 = .ok (fun k =>
      ((List.lookup k (writeCategory (fillVectorSet vs0) docs)).getD 0) /
        lsum (writeCategory (fillVectorSet vs0) docs) (fun e => e.2)) := by
  rw [personalizedSetup_eq, if_neg h]

theorem writeCategory_cons_nil (d : List (ℕ × ℚ)) (k : ℕ) :
    writeCategory d [k] = dictUpdate d k 1 := by
  show dictUpdate d k (1 / (([k] : List ℕ).length : ℚ)) = dictUpdate d k 1
  norm_num

theorem writeCat_fill_nil (k : ℕ) (hk : k ∈ List.range' 1 6012) :
    writeCategory (fillVectorSet []) [k] =
      (List.range' 1 6012).map (fun i => (i, if i = k then (1 : ℚ) else 0)) := by
  rw [fillVectorSet_nil, writeCategory_cons_nil]
  have hkmem : ∃ e ∈ (List.range' 1 6012).map (fun i => (i, (0 : ℚ))), e.1 = k :=
    ⟨(k, 0), List.mem_map.mpr ⟨k, hk, rfl⟩, rfl⟩
  rw [dictUpdate_present 1 hkmem, List.map_map]
  apply List.map_congr_left
  intro i _
  by_cases hi : i = k
  · subst hi; simp
  · simp [hi]

theorem c5_fill_covers_5 :
    ¬∃ n ∈ ([5] : List ℕ),
      List.lookup n (writeCategory (fillVectorSet []) [7]) = none := by
  rintro ⟨n, hn, hnone⟩
  rw [List.mem_singleton.mp hn] at hnone
  rw [writeCat_fill_nil 7 (List.mem_range'_1.mpr (by norm_num)), lookup_mapRange,
    if_pos (List.mem_range'_1.mpr (by norm_num))] at hnone
  exact Option.noConfusion hnone

theorem c5_sum_one :
    lsum ((List.range' 1 6012).map (fun i => (i, if i = 7 then (1 : ℚ) else 0)))
      (fun e => e.2) = 1 := by
  rw [lsum_map]
  exact lsum_ite_eq (List.nodup_range' 1 6012)
    (List.mem_range'_1.mpr (by norm_num)) 1

theorem s1_eq :
    (personalizedSetup [] [7000] [1]).1 =
      (List.range' 1 6012).map (fun i => (i, (0 : ℚ))) ++ [(7000, 1)] := by
  rw [personalizedSetup_fst, fillVectorSet_nil, writeCategory_cons_nil]
  apply dictUpdate_absent
  intro e he
  rcases List.mem_map.mp he with ⟨i, hi, rfl⟩
  have h2 := (List.mem_range'_1.mp hi).2
  show i ≠ 7000
  omega

theorem fill_s1 :
    fillVectorSet ((List.range' 1 6012).map (fun i => (i, (0 : ℚ))) ++ [(7000, 1)]) =
      (List.range' 1 6012).map (fun i => (i, (0 : ℚ))) ++ [(7000, 1)] := by
  unfold fillVectorSet
  apply fill_noop
  intro i hi
  have hi2 := List.mem_range'_1.mp hi
  constructor
  · exact ⟨(i, 0), List.mem_append.mpr (Or.inl (List.mem_map.mpr ⟨i, hi, rfl⟩)), rfl⟩
  · intro e he hei
    rcases List.mem_append.mp he with he | he
    · rcases List.mem_map.mp he with ⟨j, _, rfl⟩
      have hji : j = i := hei
      rw [hji]
    · rw [List.mem_singleton.mp he] at hei ⊢
      exfalso
      have h7 : (7000 : ℕ) = i := hei
      omega

theorem vs2_eq :
    writeCategory ((List.range' 1 6012).map (fun i => (i, (0 : ℚ))) ++ [(7000, 1)]) [1] =
      (List.range' 1 6012).map (fun i => (i, if i = 1 then (1 : ℚ) else 0)) ++
        [(7000, 1)] := by
  rw [writeCategory_cons_nil]
  have h1 : ∃ e ∈ (List.range' 1 6012).map (fun i => (i, (0 : ℚ))) ++ [(7000, 1)],
      e.1 = 1 :=
    ⟨(1, 0), List.mem_append.mpr (Or.inl (List.mem_map.mpr
      ⟨1, List.mem_range'_1.mpr (by norm_num), rfl⟩)), rfl⟩
  rw [dictUpdate_present 1 h1, List.map_append, List.map_map]
  have hA : (List.range' 1 6012).map
        ((fun e : ℕ × ℚ => if e.1 = 1 then ((1 : ℕ), (1 : ℚ)) else e) ∘
          (fun i => (i, (0 : ℚ)))) =
      (List.range' 1 6012).map (fun i => (i, if i = 1 then (1 : ℚ) else 0)) := by
    apply List.map_congr_left
    intro i _
    by_cases hi : i = 1
    · subst hi; simp
    · simp [hi]
  have hB : [((7000 : ℕ), (1 : ℚ))].map
        (fun e : ℕ × ℚ => if e.1 = 1 then ((1 : ℕ), (1 : ℚ)) else e) =
      [(7000, 1)] := by
    norm_num
  rw [hA, hB]

theorem lookup_vs2 :
    List.lookup 1 ((List.range' 1 6012).map (fun i => (i, if i = 1 then (1 : ℚ) else 0)) ++
      [(7000, 1)]) = some 1 := by
  rw [List.lookup_append, lookup_mapRange,
    if_pos (List.mem_range'_1.mpr (by norm_num))]
  simp

theorem sum_vs2 :
    lsum ((List.range' 1 6012).map (fun i => (i, if i = 1 then (1 : ℚ) else 0)) ++
      [(7000, 1)]) (fun e => e.2) = 2 := by
  rw [lsum_append, lsum_map]
  rw [lsum_ite_eq (List.nodup_range' 1 6012) (List.mem_range'_1.mpr (by norm_num)) 1]
  rw [lsum_cons, lsum_nil]
  norm_num

theorem inv2_after :
    persAt ((personalizedSetup
      ((List.range' 1 6012).map (fun i => (i, (0 : ℚ))) ++ [(7000, 1)]) [1] [1]).2) 1 =
      some (1 / 2) := by
  have hvs : writeCategory (fillVectorSet
      ((List.range' 1 6012).map (fun i => (i, (0 : ℚ))) ++ [(7000, 1)])) [1] =
      (List.range' 1 6012).map (fun i => (i, if i = 1 then (1 : ℚ) else 0)) ++
        [(7000, 1)] := by
    rw [fill_s1, vs2_eq]
  have hno : ¬∃ n ∈ ([1] : List ℕ), List.lookup n (writeCategory (fillVectorSet
      ((List.range' 1 6012).map (fun i => (i, (0 : ℚ))) ++ [(7000, 1)])) [1]) = none := by
    rintro ⟨n, hn, hnone⟩
    rw [List.mem_singleton.mp hn, hvs, lookup_vs2] at hnone
    exact Option.noConfusion hnone
  rw [personalizedSetup_ok _ _ _ hno]
  simp only [persAt]
  rw [hvs, lookup_vs2, sum_vs2]
  norm_num

theorem inv2_fresh : persAt ((personalizedSetup [] [1] [1]).2) 1 = some 1 := by
  have hvs : writeCategory (fillVectorSet []) [1] =
      (List.range' 1 6012).map (fun i => (i, if i = 1 then (1 : ℚ) else 0)) :=
    writeCat_fill_nil 1 (List.mem_range'_1.mpr (by norm_num))
  have hlk : List.lookup 1 ((List.range' 1 6012).map
      (fun i => (i, if i = 1 then (1 : ℚ) else 0))) = some 1 := by
    rw [lookup_mapRange, if_pos (List.mem_range'_1.mpr (by norm_num))]
    simp
  have hsum : lsum ((List.range' 1 6012).map
      (fun i => (i, if i = 1 then (1 : ℚ) else 0))) (fun e => e.2) = 1 := by
    rw [lsum_map]
    exact lsum_ite_eq (List.nodup_range' 1 6012)
      (List.mem_range'_1.mpr (by norm_num)) 1
  have hno : ¬∃ n ∈ ([1] : List ℕ),
      List.lookup n (writeCategory (fillVectorSet []) [1]) = none := by
    rintro ⟨n, hn, hnone⟩
    rw [List.mem_singleton.mp hn, hvs, hlk] at hnone
    exact Option.noConfusion hnone
  rw [personalizedSetup_ok _ _ _ hno]
  simp only [persAt]
  rw [hvs, hlk, hsum]
  norm_num

/-- C5 counterexample: the graph node 5 is omitted by the externally supplied
personalization weights (empty initial `vector_set`, category `[7]`), yet the
branch does not fail — node 5 was silently zero-filled by the
`str(1)…str(6012)` loop, passes the completeness check, and ends up with
personalization weight 0. -/
theorem c5_personalization_counterexample :
    (personalizedSetup [] [7] [5]).2 ≠ .error .IncompletePersonalizationError ∧
    persAt ((personalizedSetup [] [7] [5]).2) 5 = some 0 := by
  constructor
  · rw [personalizedSetup_ok [] [7] [5] c5_fill_covers_5]
    simp
  · rw [personalizedSetup_ok [] [7] [5] c5_fill_covers_5]
    simp only [persAt]
    rw [writeCat_fill_nil 7 (List.mem_range'_1.mpr (by norm_num)), lookup_mapRange,
      if_pos (List.mem_range'_1.mpr (by norm_num)), c5_sum_one]
    norm_num

/-- C5 amended: the completeness check runs only after the zero-fill of the
identifiers 1–6012 and the category writes, so graph nodes inside that fixed
range are silently given weight zero; the branch fails (exiting with the
incomplete-personalization error and producing no vector) exactly when some
graph node is still missing from the filled `vector_set`. -/
theorem c5_personalization_amended (vs0 : List (ℕ × ℚ)) (docs g : List ℕ) :
    ((personalizedSetup vs0 docs g).2 = .error .IncompletePersonalizationError ↔
      ∃ n ∈ g, List.lookup n (personalizedSetup vs0 docs g).1 = none) ∧
    ∀ R, (personalizedSetup vs0 docs g).2 = .ok R →
      ∀ n ∈ g, ¬ List.lookup n (personalizedSetup vs0 docs g).1 = none := by
  rw [personalizedSetup_fst]
  refine ⟨personalizedSetup_error_iff vs0 docs g, ?_⟩
  intro R hok n hn hnone
  have herr := (personalizedSetup_error_iff vs0 docs g).mpr ⟨n, hn, hnone⟩
  rw [hok] at herr
  exact Except.noConfusion herr

theorem c5_personalization_amended_witness :
    ¬ List.lookup 5 (personalizedSetup [] [7] [5]).1 = none :=
  (c5_personalization_amended [] [7] [5]).2 _
    (personalizedSetup_ok [] [7] [5] c5_fill_covers_5) 5 (by decide)

/-- C10: the personalized branch acts on the module-level `vector_set`
dictionary — after one invocation (category `[7000]`, graph `[1]`) the state
holds a zero entry for every identifier 1–6012 followed by the category
weight, and a later invocation (category `[1]`, graph `[1]`) started from
that state computes a different personalization for node 1 (`1/2`) than the
same invocation started from a fresh empty state (`1`): earlier writes remain
visible and affect later invocations. -/
theorem c10_vector_set_mutation :
    (personalizedSetup [] [7000] [1]).1 =
      (List.range' 1 6012).map (fun i => (i, (0 : ℚ))) ++ [(7000, 1)] ∧
    persAt ((personalizedSetup ((personalizedSetup [] [7000] [1]).1) [1] [1]).2) 1 =
      some (1 / 2) ∧
    persAt ((personalizedSetup [] [1] [1]).2) 1 = some 1 ∧
    persAt ((personalizedSetup ((personalizedSetup [] [7000] [1]).1) [1] [1]).2) 1 ≠
      persAt ((personalizedSetup [] [1] [1]).2) 1 := by
  have h2 : persAt ((personalizedSetup ((personalizedSetup [] [7000] [1]).1)
      [1] [1]).2) 1 = some (1 / 2) := by
    rw [s1_eq]
    exact inv2_after
  refine ⟨s1_eq, h2, inv2_fresh, ?_⟩
  rw [h2, inv2_fresh]
  intro hc
  have := Option.some.inj hc
  norm_num at this

end PageRankVerif
